import Mathlib

/-!
Verification of the textLSP document text-mapping core.

The Python source is shallowly embedded: Python strings (sequences of code
points) become `List Char`, Python `int` becomes `Int` (or `Nat` where the
value is provably non-negative, e.g. LSP positions), methods become pure
functions, code that can raise becomes `Except`/`Option`, and mutable
objects become explicit state values.  Library functions used by the source
(`str.splitlines(keepends=True)` restricted to the `\n` delimiter,
`pygls.workspace.position_from_utf16`, `bisect.bisect_left`, Python's stable
`sorted`) are embedded with their documented semantics.
-/

namespace TextLSP

/-- A Python string: a sequence of Unicode code points. -/
abbrev PyStr := List Char

/-- `lsprotocol.types.Position`: an LSP `(line, character)` pair.
LSP positions are non-negative, hence `Nat` fields. -/
structure Pos where
  line : Nat
  character : Nat
deriving DecidableEq, Repr

/-- `lsprotocol.types.Range`: a start/end position pair. -/
structure PosRange where
  start : Pos
  stop : Pos
deriving DecidableEq, Repr

/-- `textLSP.types.Interval`: a `(start, length)` pair of Python ints. -/
structure Interval where
  start : Int
  length : Int
deriving DecidableEq, Repr

/-- Python `str.splitlines(keepends=True)` restricted to the `\n` line
delimiter: splits a text into lines, each retaining its trailing newline. -/
def splitLinesKeep : PyStr → List PyStr
  | [] => []
  | c :: rest =>
    let r := splitLinesKeep rest
    if c = '\n' then [c] :: r
    else
      match r with
      | [] => [[c]]
      | l :: ls => (c :: l) :: ls

/-- `pygls.workspace.utf16_unit_offset`: the number of characters in `cs`
that need two UTF-16 code units. -/
def utf16UnitOffset (cs : PyStr) : Nat :=
  (cs.filter (fun c => 0xFFFF < c.toNat)).length

/-- `pygls.workspace.position_from_utf16`: convert `p.character` from UTF-16
code units to code-point units; on an out-of-range line (Python
`IndexError`) return `Position(len(lines), 0)`. -/
def positionFromUtf16 (lines : List PyStr) (p : Pos) : Pos :=
  if h : p.line < lines.length then
    ⟨p.line, p.character - utf16UnitOffset ((lines.get ⟨p.line, h⟩).take p.character)⟩
  else
    ⟨lines.length, 0⟩

/-- The loop of `BaseDocument.position_at_offset`: scan the lines,
accumulating `pos`, returning the first line whose end passes `offset`.
Falling off the end is Python's implicit `return None`.  This version is
restricted to non-negative offsets (`character = offset - pos` stays a
`Nat` along every call of interest); `positionAtOffsetIntGo` below embeds
the loop over the full Python-int domain, and
`positionAtOffsetInt_eq` proves this version is its restriction. -/
def positionAtOffsetGo : List PyStr → Nat → Nat → Nat → Option Pos
  | [], _, _, _ => none
  | l :: ls, lidx, pos, offset =>
    if pos + l.length > offset then some ⟨lidx, offset - pos⟩
    else positionAtOffsetGo ls (lidx + 1) (pos + l.length) offset

/-- `BaseDocument.position_at_offset` over a text buffer (raw or cleaned:
both run the same code over the corresponding line-split buffer),
restricted to non-negative offsets. -/
def positionAtOffset (source : PyStr) (offset : Nat) : Option Pos :=
  positionAtOffsetGo (splitLinesKeep source) 0 0 offset

/-- The loop of `BaseDocument.position_at_offset` over Python ints.  For a
negative offset and a non-empty buffer the very first test
`pos + line_len > offset` already passes, so the code returns
`Position(line=0, character=offset)` with a negative character — a
fabricated position (lsprotocol's uinteger validator turns it into an
exception where enforced) — rather than the absence value `None`. -/
def positionAtOffsetIntGo : List PyStr → Nat → Int → Int → Option (Nat × Int)
  | [], _, _, _ => none
  | l :: ls, lidx, pos, offset =>
    if pos + (l.length : Int) > offset then some (lidx, offset - pos)
    else positionAtOffsetIntGo ls (lidx + 1) (pos + l.length) offset

/-- `BaseDocument.position_at_offset` over the full Python-int offset
domain; the result is a `(line, character)` pair whose character may be
negative. -/
def positionAtOffsetInt (source : PyStr) (offset : Int) : Option (Nat × Int) :=
  positionAtOffsetIntGo (splitLinesKeep source) 0 0 offset

/-- `BaseDocument.offset_at_position` over a text buffer:
`position_from_utf16` then `col + sum(len(line) for line in lines[:row])`. -/
def offsetAtPosition (source : PyStr) (p : Pos) : Nat :=
  let lines := splitLinesKeep source
  let q := positionFromUtf16 lines p
  q.character + ((lines.take q.line).map List.length).sum

/-- `bisect.bisect_left`'s binary-search loop:
`while lo < hi: mid = (lo+hi)//2; if a[mid] < x: lo = mid+1 else: hi = mid`.
The loop shrinks `hi - lo` by at least one per iteration, so running it on
structural fuel `≥ hi - lo` reproduces it exactly. -/
def bisectLeftAux {α : Type} [LinearOrder α] (a : List α) (x : α) :
    Nat → Nat → Nat → Nat
  | 0, lo, _ => lo
  | fuel + 1, lo, hi =>
    if lo < hi then
      if a.getD ((lo + hi) / 2) x < x then
        bisectLeftAux a x fuel ((lo + hi) / 2 + 1) hi
      else bisectLeftAux a x fuel lo ((lo + hi) / 2)
    else lo

/-- `bisect.bisect_left(a, x)` with the default bounds. -/
def bisectLeft {α : Type} [LinearOrder α] (a : List α) (x : α) : Nat :=
  bisectLeftAux a x a.length 0 a.length

/-- `textLSP.types.OffsetPositionInterval`. -/
structure OffsetPositionInterval where
  offsetInterval : Interval
  positionRange : PosRange
  value : PyStr
deriving DecidableEq, Repr

/-- `textLSP.types.OffsetPositionIntervalList`: a columnar store of
intervals.  Offset columns are Python ints (`Int`); position columns are
tree-sitter points / LSP positions (`Nat`). -/
structure OffsetPositionIntervalList where
  offsetStart : List Int
  offsetEnd : List Int
  positionStartLine : List Nat
  positionStartCharacter : List Nat
  positionEndLine : List Nat
  positionEndCharacter : List Nat
  value : List PyStr
deriving DecidableEq, Repr

/-- `OffsetPositionIntervalList.__init__`: all columns empty. -/
def emptyIntervalList : OffsetPositionIntervalList :=
  ⟨[], [], [], [], [], [], []⟩

/-- `OffsetPositionIntervalList.add_interval_values`: append one entry to
every column. -/
def addIntervalValues (lst : OffsetPositionIntervalList)
    (offsetStart offsetEnd : Int) (psl psc pel pec : Nat) (v : PyStr) :
    OffsetPositionIntervalList :=
  ⟨lst.offsetStart ++ [offsetStart],
   lst.offsetEnd ++ [offsetEnd],
   lst.positionStartLine ++ [psl],
   lst.positionStartCharacter ++ [psc],
   lst.positionEndLine ++ [pel],
   lst.positionEndCharacter ++ [pec],
   lst.value ++ [v]⟩

/-- `OffsetPositionIntervalList.__len__`. -/
def listLength (lst : OffsetPositionIntervalList) : Nat :=
  lst.offsetStart.length

/-- `OffsetPositionIntervalList.get_interval(idx)`. -/
def getInterval (lst : OffsetPositionIntervalList) (idx : Nat) :
    OffsetPositionInterval :=
  ⟨⟨lst.offsetStart.getD idx 0,
    lst.offsetEnd.getD idx 0 - lst.offsetStart.getD idx 0 + 1⟩,
   ⟨⟨lst.positionStartLine.getD idx 0, lst.positionStartCharacter.getD idx 0⟩,
    ⟨lst.positionEndLine.getD idx 0, lst.positionEndCharacter.getD idx 0⟩⟩,
   lst.value.getD idx []⟩

/-- Stable insertion of `x` into an already-processed list: `x` goes after
every element whose key is `≤` its own. -/
def stableInsert {α : Type} (le : α → α → Bool) (x : α) : List α → List α
  | [] => [x]
  | y :: ys => if le y x then y :: stableInsert le x ys else x :: y :: ys

/-- Python's stable `sorted(l, key=...)`, embedded as a stable insertion
sort (any two stable sorts with the same total-preorder comparator agree). -/
def stableSort {α : Type} (le : α → α → Bool) (l : List α) : List α :=
  l.foldl (fun acc x => stableInsert le x acc) []

/-- `OffsetPositionIntervalList.sort`: Python's stable `sorted` over
`enumerate(self._offset_start)` keyed by the offset value produces the
permutation `indices`; the six offset/position columns are rebuilt via
`indices` — and, exactly as in the source, the `_value` column is NOT
reordered. -/
def sortList (lst : OffsetPositionIntervalList) : OffsetPositionIntervalList :=
  let indices :=
    (stableSort (fun a b => decide (a.2 ≤ b.2)) lst.offsetStart.enum).map (·.1)
  ⟨indices.map (fun i => lst.offsetStart.getD i 0),
   indices.map (fun i => lst.offsetEnd.getD i 0),
   indices.map (fun i => lst.positionStartLine.getD i 0),
   indices.map (fun i => lst.positionStartCharacter.getD i 0),
   indices.map (fun i => lst.positionEndLine.getD i 0),
   indices.map (fun i => lst.positionEndCharacter.getD i 0),
   lst.value⟩

/-- `OffsetPositionIntervalList.get_idx_at_offset`: binary search over end
offsets, then a containment check. -/
def getIdxAtOffset (lst : OffsetPositionIntervalList) (offset : Int) :
    Option Nat :=
  let idx := bisectLeft lst.offsetEnd offset
  if idx < lst.offsetEnd.length ∧ lst.offsetStart.getD idx 0 ≤ offset ∧
      offset ≤ lst.offsetEnd.getD idx 0 then
    some idx
  else none

/-- `OffsetPositionIntervalList.get_interval_at_offset`. -/
def getIntervalAtOffset (lst : OffsetPositionIntervalList) (offset : Int) :
    Option OffsetPositionInterval :=
  (getIdxAtOffset lst offset).map (getInterval lst)

/-- The run-collection loop of `get_idx_at_position`: starting at `i`,
collect end characters while the end line equals the target, stopping at
the list length `n`.  It is run on fuel `n - i`, so `fuel = 0` is exactly
the loop's `i >= length` exit. -/
def collectRunGo (endLines endChars : List Nat) (target : Nat) :
    Nat → Nat → List Nat
  | 0, _ => []
  | fuel + 1, i =>
    if endLines.getD i 0 = target then
      endChars.getD i 0 :: collectRunGo endLines endChars target fuel (i + 1)
    else []

def collectRun (endLines endChars : List Nat) (n target i : Nat) : List Nat :=
  collectRunGo endLines endChars target (n - i) i

/-- `OffsetPositionIntervalList.get_idx_at_position(position, strict)`:
binary search over end lines, run collection on the hit line, secondary
binary search over end characters, then the source's containment and
fallback checks. -/
def getIdxAtPosition (lst : OffsetPositionIntervalList) (p : Pos)
    (strict : Bool) : Option Nat :=
  let idx := bisectLeft lst.positionEndLine p.line
  let n := listLength lst
  if idx = n then (if strict then none else some (n - 1))
  else if p.line < lst.positionStartLine.getD idx 0 then
    (if strict then none else some idx)
  else if p.line > lst.positionEndLine.getD idx 0 then
    (if strict then none else some (n - 1))
  else
    let chars := collectRun lst.positionEndLine lst.positionEndCharacter n
      (lst.positionEndLine.getD idx 0) idx
    let idxF := idx + bisectLeft chars p.character
    if idxF = n then (if strict then none else some (n - 1))
    else if lst.positionStartCharacter.getD idxF 0 ≤ p.character ∧
        p.character ≤ lst.positionEndCharacter.getD idxF 0 then
      some idxF
    else if p.line < lst.positionStartLine.getD idxF 0 ∨
        p.character < lst.positionStartCharacter.getD idxF 0 then
      (if strict then none else some idxF)
    else (if strict then none else some (min (idxF + 1) (n - 1)))

/-- `OffsetPositionIntervalList.get_interval_at_position`. -/
def getIntervalAtPosition (lst : OffsetPositionIntervalList) (p : Pos)
    (strict : Bool) : Option OffsetPositionInterval :=
  (getIdxAtPosition lst p strict).map (getInterval lst)

/-- `textLSP.documents.document.TextNode`: a cleaned-text fragment with its
raw-source start/end points. -/
structure TextNode where
  text : PyStr
  startPoint : Nat × Nat
  endPoint : Nat × Nat
deriving DecidableEq, Repr

/-- The fragment loop of `TreeSitterDocument._clean_source`: cumulative
offsets are assigned to the fragments in order and each one is appended to
the interval index. -/
def cleanSourceGo : List TextNode → Int → OffsetPositionIntervalList →
    OffsetPositionIntervalList
  | [], _, lst => lst
  | node :: rest, offset, lst =>
    cleanSourceGo rest (offset + node.text.length)
      (addIntervalValues lst offset (offset + node.text.length - 1)
        node.startPoint.1 node.startPoint.2 node.endPoint.1 node.endPoint.2
        node.text)

/-- `TreeSitterDocument._clean_source`, parameterized by the fragment
sequence the per-syntax emitter (`_iterate_text_nodes`) yields: builds the
interval index and the cleaned text
(`''.join(self._text_intervals.values)`). -/
def cleanSource (nodes : List TextNode) :
    OffsetPositionIntervalList × PyStr :=
  let lst := cleanSourceGo nodes 0 emptyIntervalList
  (lst, lst.value.flatten)

/-- `TextDocumentContentChangeEvent`: an incremental change (a range plus
replacement text) or a whole-document replacement (the `Type2` event). -/
inductive ChangeEvent where
  | rangeChange (range : PosRange) (text : PyStr)
  | wholeChange (text : PyStr)
deriving DecidableEq, Repr

/-- `ChangeTracker`'s mutable state: the run-length ledger `_items`
(pairs `(span_length, was_changed)`; a negative span length means the span
was deleted) and the `full_document_change` flag.  The tracked document and
the `cleaned` flag fix a target text; the model passes the current target
text to each operation explicitly. -/
structure TrackerState where
  items : List (Int × Bool)
  fullDocumentChange : Bool
deriving DecidableEq, Repr

/-- `ChangeTracker.__init__`: one unchanged run covering the whole target. -/
def newTracker (target : PyStr) : TrackerState :=
  ⟨[((target.length : Int), false)], false⟩

/-- `ChangeTracker._get_offset_idx`: cumulative scan for the run containing
`offset`.  Python indexes `self._items` with a running index; running off
the end of the list (an `IndexError`) is modelled as `none`. -/
def getOffsetIdxGo : List (Int × Bool) → Int → Int → Nat → Option (Nat × Int)
  | [], offset, pos, idx =>
    if pos ≤ offset then none else some (idx, pos)
  | it :: rest, offset, pos, idx =>
    if pos ≤ offset then
      if pos + it.1 ≤ offset then
        getOffsetIdxGo rest offset (pos + it.1) (idx + 1)
      else some (idx, pos)
    else some (idx, pos)

def getOffsetIdx (items : List (Int × Bool)) (offset : Int) :
    Option (Nat × Int) :=
  getOffsetIdxGo items offset 0 0

/-- `ChangeTracker._replace_at(idx, tuples)`: overwrite the run at `idx`
with the first tuple and insert the rest after it (the source asserts
`tuples` is non-empty; every call site passes a non-empty list). -/
def replaceAt (items : List (Int × Bool)) (idx : Nat)
    (tuples : List (Int × Bool)) : List (Int × Bool) :=
  items.take idx ++ tuples ++ items.drop (idx + 1)

/-- `ChangeTracker.update_document(change)`.  Per the caller
(`TextLSPWorkspace.update_document` forwards the change to the trackers
before `super().update_document` mutates the document), `target` is the
pre-edit target text; edit positions are resolved against it with
`BaseDocument.offset_at_position`, and `doc_len` reads its length. -/
def updateDocument (st : TrackerState) (target : PyStr)
    (change : ChangeEvent) : Option TrackerState :=
  if st.fullDocumentChange then some st
  else
    match change with
    | .wholeChange _ => some ⟨[(-1, true)], true⟩
    | .rangeChange range text =>
      let startOffset0 : Int := (offsetAtPosition target range.start : Int)
      let endOffset : Int := (offsetAtPosition target range.stop : Int)
      match getOffsetIdx st.items startOffset0 with
      | none => none
      | some (itemIdx, itemOffset) =>
        match st.items[itemIdx]? with
        | none => none
        | some item =>
          let changeLength : Int := text.length
          let rangeLength : Int := endOffset - startOffset0
          let startOffset : Int := startOffset0 - itemOffset
          let lst1 : List (Int × Bool) :=
            if startOffset > 0 then [(startOffset, item.2)] else []
          let effective0 : Int :=
            if changeLength ≥ rangeLength then changeLength
            else changeLength - rangeLength
          let effective : Int := max effective0 (-itemOffset)
          let docLen : Int := target.length
          let lst2 : List (Int × Bool) :=
            lst1 ++ [(effective, true)] ++
              (if endOffset < docLen then
                [(item.1 - startOffset - rangeLength, item.2)]
              else [])
          some ⟨replaceAt st.items itemIdx lst2, st.fullDocumentChange⟩

/-- The loop of `ChangeTracker.get_changes`: materialize the changed runs
into absolute intervals against the current target length. -/
def getChangesGo : List (Int × Bool) → Int → Int → List Interval
  | [], _, _ => []
  | item :: rest, docLength, pos =>
    (if item.2 then
      (if item.1 < 0 then
        [⟨max 0 (pos + item.1), min (-item.1) (docLength - pos)⟩]
      else
        [⟨min pos (docLength - 1), item.1⟩])
    else []) ++ getChangesGo rest docLength (pos + item.1)

/-- `ChangeTracker.get_changes()`, in state-passing form: the method only
reads the tracker, so it returns its result together with the (unchanged)
state.  `docLength` is the current length of the tracked target. -/
def getChangesS (st : TrackerState) (docLength : Int) :
    List Interval × TrackerState :=
  if st.fullDocumentChange then ([⟨0, docLength⟩], st)
  else (getChangesGo st.items docLength 0, st)

/-- The workspace applying an incremental change to the target text
(pygls `Document.apply_change`): splice the replacement text over the
offsets the range resolves to. -/
def applyRangeChange (target : PyStr) (range : PosRange) (text : PyStr) :
    PyStr :=
  target.take (offsetAtPosition target range.start) ++ text ++
    target.drop (offsetAtPosition target range.stop)

/-- Specification helper: the absolute end offset of the ledger run that
`_get_offset_idx` locates for `offset` (start of that run plus its length),
or `none` when the scan runs off the ledger. -/
def runEndAt (items : List (Int × Bool)) (offset : Int) : Option Int :=
  match getOffsetIdx items offset with
  | some (idx, io) =>
    match items[idx]? with
    | some item => some (io + item.1)
    | none => none
  | none => none

/-- Sum of the (signed) run lengths of a ledger. -/
def sumRuns (items : List (Int × Bool)) : Int :=
  (items.map (·.1)).sum

/-- Sum of the absolute run lengths of a ledger (the quantity the
conservation claim is about). -/
def sumAbsRuns (items : List (Int × Bool)) : Int :=
  (items.map (fun it => |it.1|)).sum

/-- Specification helper: the start offsets `_clean_source`'s loop assigns
to the fragments, given the running offset `off`. -/
def startsFrom (off : Int) : List TextNode → List Int
  | [] => []
  | n :: rest => off :: startsFrom (off + n.text.length) rest

/-- Specification helper: the end offsets (`offset + len(node) - 1`)
`_clean_source`'s loop assigns to the fragments. -/
def endsFrom (off : Int) : List TextNode → List Int
  | [] => []
  | n :: rest => (off + n.text.length - 1) :: endsFrom (off + n.text.length) rest

/-- Specification helper: total text length of a fragment list. -/
def sumLens (nodes : List TextNode) : Int :=
  (nodes.map (fun n => (n.text.length : Int))).sum

/-- Lexicographic order on positions (line first, then character). -/
def posLe (p q : Pos) : Bool :=
  decide (p.line < q.line) ||
    (decide (p.line = q.line) && decide (p.character ≤ q.character))

/-- Position `p` lies inside the position range of entry `idx`. -/
def entryContainsPos (lst : OffsetPositionIntervalList) (idx : Nat)
    (p : Pos) : Bool :=
  posLe ⟨lst.positionStartLine.getD idx 0,
    lst.positionStartCharacter.getD idx 0⟩ p &&
  posLe p ⟨lst.positionEndLine.getD idx 0, lst.positionEndCharacter.getD idx 0⟩

/-- Fixture: two intervals appended in descending offset order — offsets
3–5 with payload `"b"` first, offsets 0–2 with payload `"a"` second. -/
def outOfOrderFixture : OffsetPositionIntervalList :=
  addIntervalValues (addIntervalValues emptyIntervalList 3 5 1 0 1 2 ['b'])
    0 2 0 0 0 2 ['a']

/-- Fixture: a sorted, well-formed index of two single-line intervals —
`"abc"` at cleaned offsets 0–2, source positions (0,0)–(0,2), and `"def"`
at cleaned offsets 3–8, source positions (1,4)–(1,9). -/
def twoLineFixture : OffsetPositionIntervalList :=
  addIntervalValues
    (addIntervalValues emptyIntervalList 0 2 0 0 0 2 ['a', 'b', 'c'])
    3 8 1 4 1 9 ['d', 'e', 'f']

theorem splitLinesKeep_flatten (s : PyStr) : (splitLinesKeep s).flatten = s := by
  induction s with
  | nil => rfl
  | cons c rest ih =>
    simp only [splitLinesKeep]
    by_cases hc : c = '\n'
    · simp only [if_pos hc, List.flatten_cons]
      rw [ih, hc]; rfl
    · simp only [if_neg hc]
      cases h : splitLinesKeep rest with
      | nil =>
        have hr : rest = [] := by rw [← ih, h]; rfl
        simp [hr]
      | cons l ls =>
        simp only [List.flatten_cons]
        rw [← ih, h]
        simp

theorem splitLinesKeep_ne_nil (s : PyStr) :
    ∀ l ∈ splitLinesKeep s, l ≠ [] := by
  induction s with
  | nil => simp [splitLinesKeep]
  | cons c rest ih =>
    intro l hl
    simp only [splitLinesKeep] at hl
    by_cases hc : c = '\n'
    · simp [hc] at hl
      rcases hl with h | h
      · simp [h]
      · exact ih l h
    · cases h : splitLinesKeep rest with
      | nil => simp [hc, h] at hl; simp [hl]
      | cons l0 ls0 =>
        simp [hc, h] at hl
        rcases hl with h' | h'
        · simp [h']
        · exact ih l (by simp [h, h'])

/-- First boundary test of `BaseDocument.paragraph_at_offset`'s backward
scan: `all(source[start_idx-i] == '\n' for i in range(1, min(3, start_idx+1)))`. -/
def paraCondA (src : PyStr) (s : Nat) : Bool :=
  (List.range' 1 (min 3 (s + 1) - 1)).all (fun i => src.getD (s - i) 'x' == '\n')

/-- Second boundary test (the "empty line" test):
`all(source[start_idx-i] == '\n' for i in range(min(2, start_idx+1)))`. -/
def paraCondB (src : PyStr) (s : Nat) : Bool :=
  (List.range (min 2 (s + 1))).all (fun i => src.getD (s - i) 'x' == '\n')

/-- Forward boundary test of the paragraph scan:
`all(source[end_idx+i] == '\n' for i in range(min(2, len_source-end_idx)))`. -/
def paraCondC (src : PyStr) (e : Nat) : Bool :=
  (List.range (min 2 (src.length - e))).all (fun i => src.getD (e + i) 'x' == '\n')

/-- The backward `while` loop of `paragraph_at_offset`: decrement
`start_idx` until a paragraph boundary is found (at index 0 the first test
is vacuously true, so the loop never passes 0). -/
def paraStartScan (src : PyStr) : Nat → Nat
  | 0 => 0
  | s + 1 =>
    if paraCondA src (s + 1) || paraCondB src (s + 1) then s + 1
    else paraStartScan src s

/-- The inner forward `while` loop of `paragraph_at_offset`: advance
`end_idx` while in bounds and no boundary found.  `bp` is the
start-anchored "empty line" test, constant throughout the loop.  The result
carries the fact that the scan never moves backwards. -/
def paraEndScan (src : PyStr) (bp : Bool) (e : Nat) : {r : Nat // e ≤ r} :=
  if h : e < src.length ∧ ¬(paraCondC src e || bp) then
    let r := paraEndScan src bp (e + 1)
    ⟨r.1, Nat.le_trans (Nat.le_succ e) r.2⟩
  else ⟨e, Nat.le_refl e⟩
termination_by src.length - e
decreasing_by omega

/-- The outer `while True` loop of `paragraph_at_offset`: run the inner
scan, then extend forward while the span is shorter than `min_length`. -/
def paraOuter (src : PyStr) (bp : Bool) (startIdx minLength : Nat) (e : Nat) :
    {r : Nat // e ≤ r} :=
  match paraEndScan src bp e with
  | ⟨rv, hrv⟩ =>
    if h : rv < src.length - 1 ∧ ((rv : Int) - startIdx + 1 < minLength) then
      let r2 := paraOuter src bp startIdx minLength (rv + 1)
      ⟨r2.1, by have h2 := r2.2; omega⟩
    else ⟨rv, hrv⟩
termination_by src.length - e
decreasing_by omega

/-- `BaseDocument.paragraph_at_offset`: returns `(start_offset, length)`.
The Python `assert` statements become the `Except.error` branch
(`AssertionError` on an out-of-range offset). -/
def paragraphAtOffset (source : PyStr) (offset : Nat) (minLength : Nat) :
    Except Unit Interval :=
  if offset < source.length then
    let startIdx := paraStartScan source offset
    let bp := paraCondB source startIdx
    let endIdx := (paraOuter source bp startIdx minLength offset).1
    .ok ⟨(startIdx : Int), (endIdx : Int) - startIdx + 1⟩
  else
    .error ()

/-- `BaseDocument.paragraph_at_offset` over the full Python-int offset
domain: the first `assert start_idx >= 0` raises exactly when the offset
is negative; otherwise the computation is the non-negative-offset model
above (whose own guard is the second `assert end_idx < len_source`). -/
def paragraphAtOffsetInt (source : PyStr) (offset : Int) (minLength : Nat) :
    Except Unit Interval :=
  if 0 ≤ offset then paragraphAtOffset source offset.toNat minLength
  else .error ()

theorem splitLinesKeep_cons_ne_nil (c : Char) (rest : PyStr) :
    splitLinesKeep (c :: rest) ≠ [] := by
  simp only [splitLinesKeep]
  by_cases hc : c = '\n'
  · simp [hc]
  · cases h : splitLinesKeep rest <;> simp [hc, h]

theorem positionAtOffsetIntGo_eq (lines : List PyStr) :
    ∀ (lidx pos offset : Nat), pos ≤ offset →
    positionAtOffsetIntGo lines lidx (pos : Int) (offset : Int) =
      (positionAtOffsetGo lines lidx pos offset).map
        (fun p => (p.line, (p.character : Int))) := by
  induction lines with
  | nil => intro lidx pos offset _; rfl
  | cons l ls ih =>
    intro lidx pos offset h
    simp only [positionAtOffsetIntGo, positionAtOffsetGo]
    by_cases hc : pos + l.length > offset
    · rw [if_pos (by exact_mod_cast hc), if_pos hc]
      simp [Nat.cast_sub h]
    · rw [if_neg (by exact_mod_cast hc), if_neg hc]
      have hcast : (pos : Int) + (l.length : Int) =
          ((pos + l.length : Nat) : Int) := by push_cast; ring
      rw [hcast]
      exact ih (lidx + 1) (pos + l.length) offset (by omega)

theorem positionAtOffsetInt_eq (s : PyStr) (o : Nat) :
    positionAtOffsetInt s (o : Int) =
      (positionAtOffset s o).map (fun p => (p.line, (p.character : Int))) := by
  have := positionAtOffsetIntGo_eq (splitLinesKeep s) 0 0 o (Nat.zero_le o)
  simpa [positionAtOffsetInt, positionAtOffset] using this

theorem positionAtOffsetGo_spec (lines : List PyStr) :
    ∀ (lidx pos offset : Nat), pos ≤ offset →
    offset < pos + (lines.map List.length).sum →
    ∃ j c, positionAtOffsetGo lines lidx pos offset = some ⟨lidx + j, c⟩ ∧
      j < lines.length ∧
      pos + (((lines.take j).map List.length).sum) + c = offset := by
  induction lines with
  | nil =>
    intro lidx pos offset h1 h2
    simp at h2
    omega
  | cons l ls ih =>
    intro lidx pos offset h1 h2
    simp only [positionAtOffsetGo]
    by_cases hcase : pos + l.length > offset
    · refine ⟨0, offset - pos, ?_, ?_, ?_⟩
      · simp [hcase]
      · simp
      · simp; omega
    · have h2' : offset < (pos + l.length) + (ls.map List.length).sum := by
        simp at h2; omega
      obtain ⟨j, c, heq, hj, hsum⟩ :=
        ih (lidx + 1) (pos + l.length) offset (by omega) h2'
      refine ⟨j + 1, c, ?_, ?_, ?_⟩
      · rw [if_neg hcase, heq]
        congr 2
        omega
      · simpa using hj
      · simp only [List.take_succ_cons, List.map_cons, List.sum_cons]
        omega

theorem positionAtOffsetGo_none (lines : List PyStr) :
    ∀ (lidx pos offset : Nat),
    pos + (lines.map List.length).sum ≤ offset →
    positionAtOffsetGo lines lidx pos offset = none := by
  induction lines with
  | nil => intro _ _ _ _; rfl
  | cons l ls ih =>
    intro lidx pos offset h
    simp only [List.map_cons, List.sum_cons] at h
    simp only [positionAtOffsetGo]
    rw [if_neg (by omega)]
    exact ih _ _ _ (by omega)

theorem sum_lines_length (s : PyStr) :
    ((splitLinesKeep s).map List.length).sum = s.length := by
  conv_rhs => rw [← splitLinesKeep_flatten s]
  simp [List.length_flatten]

/-- C1 (amended): for every text all of whose characters fit in a single
UTF-16 code unit, and every valid offset `o` into it,
`offset_at_position (position_at_offset o) = o`.  This covers both the raw
and the cleaned buffer of a `BaseDocument`, since both run the same
line-scan code over the corresponding line-split buffer. -/
theorem c1_round_trip_bmp (s : PyStr) (o : Nat)
    (hbmp : ∀ c ∈ s, c.toNat ≤ 0xFFFF) (ho : o < s.length) :
    ∃ p, positionAtOffset s o = some p ∧ offsetAtPosition s p = o := by
  obtain ⟨j, c, heq, hj, hsum⟩ :=
    positionAtOffsetGo_spec (splitLinesKeep s) 0 0 o (Nat.zero_le o)
      (by rw [sum_lines_length]; omega)
  refine ⟨⟨j, c⟩, by simpa [positionAtOffset] using heq, ?_⟩
  have hutf : utf16UnitOffset (((splitLinesKeep s).get ⟨j, hj⟩).take c) = 0 := by
    unfold utf16UnitOffset
    rw [List.length_eq_zero]
    rw [List.filter_eq_nil_iff]
    intro a ha
    have hline : a ∈ (splitLinesKeep s).get ⟨j, hj⟩ := List.mem_of_mem_take ha
    have hflat : a ∈ (splitLinesKeep s).flatten :=
      List.mem_flatten.mpr ⟨_, List.get_mem _ _ _, hline⟩
    rw [splitLinesKeep_flatten] at hflat
    simpa using hbmp a hflat
  simp only [offsetAtPosition, positionFromUtf16, dif_pos hj, hutf, Nat.sub_zero]
  omega

/-- C1 counterexample: with an astral (non-BMP) character in the text the
round trip fails: for `s = "𝄞a"` and offset `1`,
`position_at_offset 1 = (0, 1)` but `offset_at_position (0, 1) = 0`. -/
theorem c1_counterexample :
    positionAtOffset [Char.ofNat 0x1D11E, 'a'] 1 = some ⟨0, 1⟩ ∧
    offsetAtPosition [Char.ofNat 0x1D11E, 'a'] ⟨0, 1⟩ = 0 := by
  constructor
  · rfl
  · rfl

/-- C1 witness: the amended round-trip theorem applied to the concrete text
`"a\nb"` at offset `2`. -/
theorem c1_witness :
    ∃ p, positionAtOffset ['a', '\n', 'b'] 2 = some p ∧
      offsetAtPosition ['a', '\n', 'b'] p = 2 :=
  c1_round_trip_bmp ['a', '\n', 'b'] 2 (by decide) (by decide)

theorem paraStartScan_le (src : PyStr) : ∀ s, paraStartScan src s ≤ s := by
  intro s
  induction s with
  | zero => simp [paraStartScan]
  | succ n ih =>
    simp only [paraStartScan]
    by_cases hc : (paraCondA src (n + 1) || paraCondB src (n + 1)) = true
    · rw [if_pos hc]
    · rw [if_neg hc]
      omega

/-- C9: for every buffer and every valid offset `o`,
`paragraph_at_offset o` succeeds and returns an interval `(start, length)`
with `start ≤ o < start + length`; being a pure function of its arguments,
a repeated call with no intervening edit returns the same interval. -/
theorem c9_paragraph_containment (src : PyStr) (o minLength : Nat)
    (ho : o < src.length) :
    ∃ st len, paragraphAtOffset src o minLength = .ok ⟨st, len⟩ ∧
      st ≤ (o : Int) ∧ (o : Int) < st + len ∧
      paragraphAtOffset src o minLength = paragraphAtOffset src o minLength := by
  have hstart := paraStartScan_le src o
  have hend := (paraOuter src (paraCondB src (paraStartScan src o))
      (paraStartScan src o) minLength o).2
  refine ⟨(paraStartScan src o : Int),
    ((paraOuter src (paraCondB src (paraStartScan src o))
      (paraStartScan src o) minLength o).1 : Int) - (paraStartScan src o) + 1,
    ?_, ?_, ?_, rfl⟩
  · simp only [paragraphAtOffset, if_pos ho]
  · omega
  · omega

/-- C9 witness: the containment theorem applied to the buffer
`"ab\n\ncd"` at offset `1`. -/
theorem c9_witness :
    ∃ st len,
      paragraphAtOffset ['a', 'b', '\n', '\n', 'c', 'd'] 1 0 = .ok ⟨st, len⟩ ∧
      st ≤ (1 : Int) ∧ (1 : Int) < st + len ∧
      paragraphAtOffset ['a', 'b', '\n', '\n', 'c', 'd'] 1 0 =
        paragraphAtOffset ['a', 'b', '\n', '\n', 'c', 'd'] 1 0 :=
  c9_paragraph_containment ['a', 'b', '\n', '\n', 'c', 'd'] 1 0 (by decide)

/-- C5 (amended): `position_at_offset` returns the absence value `None` on
every offset at or past the end of the buffer, but on a negative offset
into a non-empty buffer it returns the fabricated position
`Position(0, offset)` with a negative character instead of `None`
(lsprotocol's uinteger validator turns that into an exception where
enforced); `paragraph_at_offset` raises an `AssertionError` (modelled as
`Except.error`) on every out-of-range offset — negative or at/past the
end — instead of returning an absence value. -/
theorem c5_out_of_range (src : PyStr) (o : Int) (minLength : Nat)
    (h : o < 0 ∨ (src.length : Int) ≤ o) :
    ((src.length : Int) ≤ o → positionAtOffsetInt src o = none) ∧
    (o < 0 → positionAtOffsetInt src o =
      if src = [] then none else some (0, o)) ∧
    paragraphAtOffsetInt src o minLength = .error () := by
  refine ⟨?_, ?_, ?_⟩
  · intro hle
    have ho : 0 ≤ o := le_trans (by positivity) hle
    obtain ⟨n, rfl⟩ : ∃ n : Nat, o = (n : Int) :=
      ⟨o.toNat, (Int.toNat_of_nonneg ho).symm⟩
    rw [positionAtOffsetInt_eq]
    have hnone : positionAtOffset src n = none :=
      positionAtOffsetGo_none (splitLinesKeep src) 0 0 n
        (by rw [sum_lines_length]; omega)
    rw [hnone]
    rfl
  · intro hneg
    cases src with
    | nil => rfl
    | cons c rest =>
      rw [if_neg (by simp)]
      cases hsplit : splitLinesKeep (c :: rest) with
      | nil => exact absurd hsplit (splitLinesKeep_cons_ne_nil c rest)
      | cons l ls =>
        have hlnn : l ≠ [] :=
          splitLinesKeep_ne_nil (c :: rest) l (by rw [hsplit]; simp)
        have hlen : 0 < l.length := List.length_pos.mpr hlnn
        rw [positionAtOffsetInt, hsplit]
        simp only [positionAtOffsetIntGo]
        rw [if_pos (by omega)]
        rw [sub_zero]
  · rcases h with hneg | hle
    · rw [paragraphAtOffsetInt, if_neg (by omega)]
    · rw [paragraphAtOffsetInt, if_pos (by omega), paragraphAtOffset,
        if_neg (by omega)]

/-- C5 counterexample: on the buffer `"ab"`, `position_at_offset(-1)`
returns the fabricated `Position(0, -1)` (negative character) instead of
the absence value, and `paragraph_at_offset` raises an `AssertionError`
(modelled as `Except.error`) at both the negative offset `-1` and the
past-the-end offset `5`, rather than returning the absence value the
claim promises for every out-of-range lookup. -/
theorem c5_counterexample :
    positionAtOffsetInt ['a', 'b'] (-1) = some (0, -1) ∧
    paragraphAtOffsetInt ['a', 'b'] (-1) 0 = .error () ∧
    paragraphAtOffsetInt ['a', 'b'] 5 0 = .error () := by
  refine ⟨rfl, rfl, rfl⟩

/-- C5 witness: the amended theorem applied to the buffer `"a"`, once at
the negative offset `-1` (fabricated position, assertion failure) and
once at the past-the-end offset `3` (absence value, assertion failure). -/
theorem c5_witness :
    ((((['a'] : PyStr).length : Int) ≤ -1 →
        positionAtOffsetInt ['a'] (-1) = none) ∧
      ((-1 : Int) < 0 → positionAtOffsetInt ['a'] (-1) =
        if (['a'] : PyStr) = [] then none else some (0, -1)) ∧
      paragraphAtOffsetInt ['a'] (-1) 0 = .error ()) ∧
    ((((['a'] : PyStr).length : Int) ≤ 3 →
        positionAtOffsetInt ['a'] 3 = none) ∧
      ((3 : Int) < 0 → positionAtOffsetInt ['a'] 3 =
        if (['a'] : PyStr) = [] then none else some (0, 3)) ∧
      paragraphAtOffsetInt ['a'] 3 0 = .error ()) :=
  ⟨c5_out_of_range ['a'] (-1) 0 (Or.inl (by decide)),
   c5_out_of_range ['a'] 3 0 (Or.inr (by decide))⟩

/-- C10: `get_changes` is read-only: it returns the tracker state
unchanged (it modifies neither the ledger nor the full-document flag), so
two consecutive calls with no intervening `update_document` return equal
interval lists. -/
theorem c10_get_changes_read_only (st : TrackerState) (docLength : Int) :
    (getChangesS st docLength).2 = st ∧
    (getChangesS st docLength).1 =
      (getChangesS (getChangesS st docLength).2 docLength).1 := by
  cases hf : st.fullDocumentChange <;> simp [getChangesS, hf]

/-- C7: a full-document replacement event collapses the ledger to the
single `(-1, true)` sentinel; every subsequent update leaves the state
unchanged; and `get_changes` then returns exactly `[Interval(0, L)]` for
the current target length `L`. -/
theorem c7_full_document_change (st : TrackerState) (target t : PyStr)
    (h : st.fullDocumentChange = false) :
    ∃ st', updateDocument st target (.wholeChange t) = some st' ∧
      st'.items = [(-1, true)] ∧ st'.fullDocumentChange = true ∧
      (∀ target2 ch, updateDocument st' target2 ch = some st') ∧
      (∀ L, getChangesS st' L = ([⟨0, L⟩], st')) := by
  refine ⟨⟨[(-1, true)], true⟩, ?_, rfl, rfl, ?_, ?_⟩
  · simp [updateDocument, h]
  · intro target2 ch
    simp [updateDocument]
  · intro L
    simp [getChangesS]

/-- C7 witness: the theorem applied to a fresh tracker on the buffer
`"ab"` receiving a whole-document replacement. -/
theorem c7_witness :
    ∃ st', updateDocument (newTracker ['a', 'b']) ['a', 'b']
        (.wholeChange ['q']) = some st' ∧
      st'.items = [(-1, true)] ∧ st'.fullDocumentChange = true ∧
      (∀ target2 ch, updateDocument st' target2 ch = some st') ∧
      (∀ L, getChangesS st' L = ([⟨0, L⟩], st')) :=
  c7_full_document_change (newTracker ['a', 'b']) ['a', 'b'] ['q'] rfl

/-- C4: the sort bug at an explicit input.  Two entries are appended out
of ascending order (offsets 3–5 with payload `"b"`, then offsets 0–2 with
payload `"a"`).  After `sort()` the offset and position columns are in
ascending order, but the payload column is left unpermuted, so entry 0
pairs offsets 0–2 with payload `"b"` — not the payload it was added
with. -/
theorem c4_sort_loses_payloads :
    (sortList outOfOrderFixture).offsetStart = [0, 3] ∧
    (sortList outOfOrderFixture).offsetEnd = [2, 5] ∧
    (sortList outOfOrderFixture).positionStartLine = [0, 1] ∧
    (sortList outOfOrderFixture).value = [['b'], ['a']] ∧
    getInterval (sortList outOfOrderFixture) 0 =
      ⟨⟨0, 3⟩, ⟨⟨0, 0⟩, ⟨0, 2⟩⟩, ['b']⟩ := by
  refine ⟨rfl, rfl, rfl, rfl, rfl⟩

/-- C6: the strict-lookup bug at an explicit input.  In the sorted
two-entry index, position `(0,5)` is contained in neither entry (entry 0
ends at `(0,2)`, entry 1 spans line 1), yet
`get_idx_at_position((0,5), strict=True)` returns index 1 instead of the
absence value: the final containment check compares characters only, not
lines. -/
theorem c6_strict_returns_noncontaining :
    getIdxAtPosition twoLineFixture ⟨0, 5⟩ true = some 1 ∧
    listLength twoLineFixture = 2 ∧
    entryContainsPos twoLineFixture 0 ⟨0, 5⟩ = false ∧
    entryContainsPos twoLineFixture 1 ⟨0, 5⟩ = false := by
  refine ⟨rfl, rfl, rfl, rfl⟩

theorem cleanSourceGo_offsetStart (nodes : List TextNode) :
    ∀ (off : Int) (lst : OffsetPositionIntervalList),
    (cleanSourceGo nodes off lst).offsetStart =
      lst.offsetStart ++ startsFrom off nodes := by
  induction nodes with
  | nil => intro off lst; simp [cleanSourceGo, startsFrom]
  | cons n rest ih =>
    intro off lst
    simp [cleanSourceGo, startsFrom, ih, addIntervalValues]

theorem cleanSourceGo_offsetEnd (nodes : List TextNode) :
    ∀ (off : Int) (lst : OffsetPositionIntervalList),
    (cleanSourceGo nodes off lst).offsetEnd =
      lst.offsetEnd ++ endsFrom off nodes := by
  induction nodes with
  | nil => intro off lst; simp [cleanSourceGo, endsFrom]
  | cons n rest ih =>
    intro off lst
    simp [cleanSourceGo, endsFrom, ih, addIntervalValues]

theorem cleanSourceGo_value (nodes : List TextNode) :
    ∀ (off : Int) (lst : OffsetPositionIntervalList),
    (cleanSourceGo nodes off lst).value =
      lst.value ++ nodes.map (·.text) := by
  induction nodes with
  | nil => intro off lst; simp [cleanSourceGo]
  | cons n rest ih =>
    intro off lst
    simp [cleanSourceGo, ih, addIntervalValues]

theorem startsFrom_length (nodes : List TextNode) :
    ∀ off, (startsFrom off nodes).length = nodes.length := by
  induction nodes with
  | nil => intro off; rfl
  | cons n rest ih => intro off; simp [startsFrom, ih]

theorem startsFrom_getD (nodes : List TextNode) :
    ∀ (off : Int) (i : Nat), i < nodes.length →
    (startsFrom off nodes).getD i 0 = off + sumLens (nodes.take i) := by
  induction nodes with
  | nil => intro off i h; simp at h
  | cons n rest ih =>
    intro off i h
    cases i with
    | zero => simp [startsFrom, sumLens]
    | succ i =>
      simp only [startsFrom, List.getD_cons_succ, List.take_succ_cons]
      rw [ih (off + n.text.length) i (by simpa using h)]
      simp only [sumLens, List.map_cons, List.sum_cons]
      ring

theorem endsFrom_getD (nodes : List TextNode) :
    ∀ (off : Int) (i : Nat), i < nodes.length →
    (endsFrom off nodes).getD i 0 = off + sumLens (nodes.take (i + 1)) - 1 := by
  induction nodes with
  | nil => intro off i h; simp at h
  | cons n rest ih =>
    intro off i h
    cases i with
    | zero => simp [endsFrom, sumLens]
    | succ i =>
      simp only [endsFrom, List.getD_cons_succ, List.take_succ_cons]
      rw [ih (off + n.text.length) i (by simpa using h)]
      simp only [sumLens, List.map_cons, List.sum_cons]
      ring

theorem sumLens_nonneg (nodes : List TextNode) : 0 ≤ sumLens nodes := by
  apply List.sum_nonneg
  intro x hx
  simp only [List.mem_map] at hx
  obtain ⟨n, _, rfl⟩ := hx
  positivity

theorem sumLens_take_mono (nodes : List TextNode) (i j : Nat) (hij : i ≤ j) :
    sumLens (nodes.take i) ≤ sumLens (nodes.take j) := by
  have h1 : nodes.take i = (nodes.take j).take i := by
    rw [List.take_take, Nat.min_eq_left hij]
  rw [h1]
  conv_rhs => rw [← List.take_append_drop i (nodes.take j)]
  simp only [sumLens, List.map_append, List.sum_append]
  have := sumLens_nonneg ((nodes.take j).drop i)
  simp only [sumLens] at this
  omega

theorem sumLens_take_succ (nodes : List TextNode) (i : Nat)
    (h : i < nodes.length) :
    sumLens (nodes.take (i + 1)) =
      sumLens (nodes.take i) + ((nodes.get ⟨i, h⟩).text.length : Int) := by
  rw [List.take_succ]
  simp only [sumLens, List.map_append, List.sum_append]
  have : nodes[i]? = some (nodes.get ⟨i, h⟩) := by
    rw [List.getElem?_eq_getElem h]
    rfl
  simp [this]

theorem sumLens_take_strict (nodes : List TextNode)
    (hne : ∀ n ∈ nodes, n.text ≠ []) (i j : Nat) (hij : i < j)
    (hj : j ≤ nodes.length) :
    sumLens (nodes.take i) < sumLens (nodes.take j) := by
  have hi : i < nodes.length := by omega
  have h1 := sumLens_take_succ nodes i hi
  have h2 := sumLens_take_mono nodes (i + 1) j hij
  have h3 : (nodes.get ⟨i, hi⟩).text ≠ [] := hne _ (List.get_mem _ _ _)
  have h4 : 0 < (nodes.get ⟨i, hi⟩).text.length := List.length_pos.mpr h3
  omega

theorem flatten_texts_length (nodes : List TextNode) :
    (((nodes.map (·.text)).flatten).length : Int) = sumLens nodes := by
  induction nodes with
  | nil => rfl
  | cons n rest ih =>
    simp only [List.map_cons, List.flatten_cons, List.length_append,
      sumLens, List.sum_cons]
    push_cast
    simp only [sumLens] at ih
    omega

/-- C2: after `_clean_source` rebuilds the index from the emitter's
fragment sequence (each fragment non-empty), the index partitions
`[0, len(cleanedText))` exactly: start offsets are strictly ascending,
entries are pairwise disjoint (`end_i < start_j` for `i < j`), contiguous
with no gaps (`start_(i+1) = end_i + 1`), the first entry starts at 0, the
last ends at `len(cleanedText) - 1`, and the payloads concatenated in
order are exactly the cleaned text. -/
theorem c2_interval_partition (nodes : List TextNode)
    (hne : ∀ n ∈ nodes, n.text ≠ []) :
    (∀ i j, i < j → j < listLength (cleanSource nodes).1 →
      (cleanSource nodes).1.offsetStart.getD i 0 <
        (cleanSource nodes).1.offsetStart.getD j 0) ∧
    (∀ i j, i < j → j < listLength (cleanSource nodes).1 →
      (cleanSource nodes).1.offsetEnd.getD i 0 <
        (cleanSource nodes).1.offsetStart.getD j 0) ∧
    (∀ i, i + 1 < listLength (cleanSource nodes).1 →
      (cleanSource nodes).1.offsetStart.getD (i + 1) 0 =
        (cleanSource nodes).1.offsetEnd.getD i 0 + 1) ∧
    (0 < listLength (cleanSource nodes).1 →
      (cleanSource nodes).1.offsetStart.getD 0 0 = 0) ∧
    (0 < listLength (cleanSource nodes).1 →
      (cleanSource nodes).1.offsetEnd.getD
          (listLength (cleanSource nodes).1 - 1) 0 =
        ((cleanSource nodes).2.length : Int) - 1) ∧
    (cleanSource nodes).1.value.flatten = (cleanSource nodes).2 := by
  have hstart : (cleanSource nodes).1.offsetStart = startsFrom 0 nodes := by
    simp [cleanSource, cleanSourceGo_offsetStart, emptyIntervalList]
  have hend : (cleanSource nodes).1.offsetEnd = endsFrom 0 nodes := by
    simp [cleanSource, cleanSourceGo_offsetEnd, emptyIntervalList]
  have hval : (cleanSource nodes).1.value = nodes.map (·.text) := by
    simp [cleanSource, cleanSourceGo_value, emptyIntervalList]
  have hlen : listLength (cleanSource nodes).1 = nodes.length := by
    rw [listLength, hstart, startsFrom_length]
  have hclean : (cleanSource nodes).2 = (nodes.map (·.text)).flatten := by
    simp [cleanSource, cleanSourceGo_value, emptyIntervalList]
  refine ⟨?_, ?_, ?_, ?_, ?_, ?_⟩
  · intro i j hij hj
    rw [hlen] at hj
    rw [hstart, startsFrom_getD nodes 0 i (by omega),
      startsFrom_getD nodes 0 j hj]
    have := sumLens_take_strict nodes hne i j hij (by omega)
    omega
  · intro i j hij hj
    rw [hlen] at hj
    rw [hend, hstart, endsFrom_getD nodes 0 i (by omega),
      startsFrom_getD nodes 0 j hj]
    have := sumLens_take_mono nodes (i + 1) j (by omega)
    omega
  · intro i hi
    rw [hlen] at hi
    rw [hstart, hend, startsFrom_getD nodes 0 (i + 1) hi,
      endsFrom_getD nodes 0 i (by omega)]
    omega
  · intro h0
    rw [hlen] at h0
    rw [hstart, startsFrom_getD nodes 0 0 h0]
    simp [sumLens]
  · intro h0
    rw [hlen] at h0
    rw [hend, hlen, endsFrom_getD nodes 0 (nodes.length - 1) (by omega),
      hclean, flatten_texts_length]
    have : nodes.length - 1 + 1 = nodes.length := by omega
    rw [this, List.take_length]
    omega
  · rw [hval, hclean]

/-- C2 witness: the partition theorem applied to a concrete fragment
sequence (the cleaned form of a small sectioned document). -/
theorem c2_witness :
    (∀ i j, i < j →
      j < listLength
        (cleanSource [⟨['I', 'n', 't', 'r', 'o'], (0, 9), (0, 14)⟩,
          ⟨['\n'], (0, 15), (1, 0)⟩]).1 →
      (cleanSource [⟨['I', 'n', 't', 'r', 'o'], (0, 9), (0, 14)⟩,
        ⟨['\n'], (0, 15), (1, 0)⟩]).1.offsetStart.getD i 0 <
        (cleanSource [⟨['I', 'n', 't', 'r', 'o'], (0, 9), (0, 14)⟩,
          ⟨['\n'], (0, 15), (1, 0)⟩]).1.offsetStart.getD j 0) ∧
    (∀ i j, i < j →
      j < listLength
        (cleanSource [⟨['I', 'n', 't', 'r', 'o'], (0, 9), (0, 14)⟩,
          ⟨['\n'], (0, 15), (1, 0)⟩]).1 →
      (cleanSource [⟨['I', 'n', 't', 'r', 'o'], (0, 9), (0, 14)⟩,
        ⟨['\n'], (0, 15), (1, 0)⟩]).1.offsetEnd.getD i 0 <
        (cleanSource [⟨['I', 'n', 't', 'r', 'o'], (0, 9), (0, 14)⟩,
          ⟨['\n'], (0, 15), (1, 0)⟩]).1.offsetStart.getD j 0) ∧
    (∀ i, i + 1 < listLength
        (cleanSource [⟨['I', 'n', 't', 'r', 'o'], (0, 9), (0, 14)⟩,
          ⟨['\n'], (0, 15), (1, 0)⟩]).1 →
      (cleanSource [⟨['I', 'n', 't', 'r', 'o'], (0, 9), (0, 14)⟩,
        ⟨['\n'], (0, 15), (1, 0)⟩]).1.offsetStart.getD (i + 1) 0 =
        (cleanSource [⟨['I', 'n', 't', 'r', 'o'], (0, 9), (0, 14)⟩,
          ⟨['\n'], (0, 15), (1, 0)⟩]).1.offsetEnd.getD i 0 + 1) ∧
    (0 < listLength
        (cleanSource [⟨['I', 'n', 't', 'r', 'o'], (0, 9), (0, 14)⟩,
          ⟨['\n'], (0, 15), (1, 0)⟩]).1 →
      (cleanSource [⟨['I', 'n', 't', 'r', 'o'], (0, 9), (0, 14)⟩,
        ⟨['\n'], (0, 15), (1, 0)⟩]).1.offsetStart.getD 0 0 = 0) ∧
    (0 < listLength
        (cleanSource [⟨['I', 'n', 't', 'r', 'o'], (0, 9), (0, 14)⟩,
          ⟨['\n'], (0, 15), (1, 0)⟩]).1 →
      (cleanSource [⟨['I', 'n', 't', 'r', 'o'], (0, 9), (0, 14)⟩,
        ⟨['\n'], (0, 15), (1, 0)⟩]).1.offsetEnd.getD
          (listLength
            (cleanSource [⟨['I', 'n', 't', 'r', 'o'], (0, 9), (0, 14)⟩,
              ⟨['\n'], (0, 15), (1, 0)⟩]).1 - 1) 0 =
        (((cleanSource [⟨['I', 'n', 't', 'r', 'o'], (0, 9), (0, 14)⟩,
          ⟨['\n'], (0, 15), (1, 0)⟩]).2.length : Int) - 1)) ∧
    (cleanSource [⟨['I', 'n', 't', 'r', 'o'], (0, 9), (0, 14)⟩,
      ⟨['\n'], (0, 15), (1, 0)⟩]).1.value.flatten =
      (cleanSource [⟨['I', 'n', 't', 'r', 'o'], (0, 9), (0, 14)⟩,
        ⟨['\n'], (0, 15), (1, 0)⟩]).2 :=
  c2_interval_partition
    [⟨['I', 'n', 't', 'r', 'o'], (0, 9), (0, 14)⟩, ⟨['\n'], (0, 15), (1, 0)⟩]
    (by decide)

theorem bisectLeftAux_spec {α : Type} [LinearOrder α] (a : List α) (x : α)
    (hsorted : ∀ i j, i ≤ j → j < a.length → a.getD i x ≤ a.getD j x) :
    ∀ (fuel lo hi : Nat), lo ≤ hi → hi ≤ a.length → hi - lo ≤ fuel →
    (∀ i, i < lo → a.getD i x < x) →
    (∀ i, hi ≤ i → i < a.length → x ≤ a.getD i x) →
    lo ≤ bisectLeftAux a x fuel lo hi ∧ bisectLeftAux a x fuel lo hi ≤ hi ∧
    (∀ i, i < bisectLeftAux a x fuel lo hi → a.getD i x < x) ∧
    (bisectLeftAux a x fuel lo hi < a.length →
      x ≤ a.getD (bisectLeftAux a x fuel lo hi) x) := by
  intro fuel
  induction fuel with
  | zero =>
    intro lo hi h1 h2 h3 hinv1 hinv2
    have hlo : lo = hi := by omega
    simp only [bisectLeftAux]
    exact ⟨Nat.le_refl lo, by omega, hinv1, fun h => hinv2 lo (by omega) h⟩
  | succ fuel ih =>
    intro lo hi h1 h2 h3 hinv1 hinv2
    simp only [bisectLeftAux]
    by_cases hlh : lo < hi
    · rw [if_pos hlh]
      have hmid1 : lo ≤ (lo + hi) / 2 := by omega
      have hmid2 : (lo + hi) / 2 < hi := by omega
      by_cases hm : a.getD ((lo + hi) / 2) x < x
      · rw [if_pos hm]
        have := ih ((lo + hi) / 2 + 1) hi (by omega) h2 (by omega)
          (fun i hi2 => by
            by_cases hcase : i < lo
            · exact hinv1 i hcase
            · calc a.getD i x ≤ a.getD ((lo + hi) / 2) x :=
                    hsorted i ((lo + hi) / 2) (by omega) (by omega)
                _ < x := hm)
          hinv2
        exact ⟨by omega, this.2.1, this.2.2.1, this.2.2.2⟩
      · rw [if_neg hm]
        push_neg at hm
        have := ih lo ((lo + hi) / 2) (by omega) (by omega) (by omega) hinv1
          (fun i hi1 hi2 =>
            le_trans hm (hsorted ((lo + hi) / 2) i hi1 hi2))
        exact ⟨this.1, by omega, this.2.2.1, this.2.2.2⟩
    · rw [if_neg hlh]
      exact ⟨Nat.le_refl lo, by omega, hinv1,
        fun h => hinv2 lo (by omega) h⟩

theorem bisectLeft_spec {α : Type} [LinearOrder α] (a : List α) (x : α)
    (hsorted : ∀ i j, i ≤ j → j < a.length → a.getD i x ≤ a.getD j x) :
    bisectLeft a x ≤ a.length ∧
    (∀ i, i < bisectLeft a x → a.getD i x < x) ∧
    (bisectLeft a x < a.length → x ≤ a.getD (bisectLeft a x) x) := by
  have := bisectLeftAux_spec a x hsorted a.length 0 a.length
    (Nat.zero_le _) (Nat.le_refl _) (by omega)
    (fun i h => absurd h (Nat.not_lt_zero i))
    (fun i h1 h2 => absurd h1 (by omega))
  exact ⟨this.2.1, this.2.2.1, this.2.2.2⟩

/-- C8: on a sorted, disjoint index, `get_idx_at_offset o` returns the
index of the (unique) interval with `start ≤ o ≤ end` when one exists, and
the absence value when `o` falls in a gap between intervals or outside
them. -/
theorem c8_interval_at_offset (lst : OffsetPositionIntervalList) (o : Int)
    (hse : ∀ i, i < lst.offsetEnd.length →
      lst.offsetStart.getD i 0 ≤ lst.offsetEnd.getD i 0)
    (hdisj : ∀ j, j < lst.offsetEnd.length → ∀ i, i < j →
      lst.offsetEnd.getD i 0 < lst.offsetStart.getD j 0) :
    (∀ i, getIdxAtOffset lst o = some i ↔
      (i < lst.offsetEnd.length ∧ lst.offsetStart.getD i 0 ≤ o ∧
        o ≤ lst.offsetEnd.getD i 0)) ∧
    (getIdxAtOffset lst o = none ↔
      ∀ i, i < lst.offsetEnd.length →
        ¬(lst.offsetStart.getD i 0 ≤ o ∧ o ≤ lst.offsetEnd.getD i 0)) := by
  have hgetD : ∀ (i : Nat) (d : Int), i < lst.offsetEnd.length →
      lst.offsetEnd.getD i d = lst.offsetEnd.getD i 0 := by
    intro i d h
    rw [List.getD_eq_getElem _ _ h, List.getD_eq_getElem _ _ h]
  have hsorted : ∀ i j, i ≤ j → j < lst.offsetEnd.length →
      lst.offsetEnd.getD i o ≤ lst.offsetEnd.getD j o := by
    intro i j hij hj
    rw [hgetD i o (by omega), hgetD j o hj]
    rcases Nat.lt_or_ge i j with h | h
    · have h1 := hdisj j hj i h
      have h2 := hse j hj
      omega
    · have : i = j := by omega
      rw [this]
  obtain ⟨hb1, hb2, hb3⟩ := bisectLeft_spec lst.offsetEnd o hsorted
  have key : ∀ i, getIdxAtOffset lst o = some i ↔
      (i < lst.offsetEnd.length ∧ lst.offsetStart.getD i 0 ≤ o ∧
        o ≤ lst.offsetEnd.getD i 0) := by
    intro i
    constructor
    · intro h
      simp only [getIdxAtOffset] at h
      by_cases hc : bisectLeft lst.offsetEnd o < lst.offsetEnd.length ∧
          lst.offsetStart.getD (bisectLeft lst.offsetEnd o) 0 ≤ o ∧
          o ≤ lst.offsetEnd.getD (bisectLeft lst.offsetEnd o) 0
      · rw [if_pos hc] at h
        obtain rfl : bisectLeft lst.offsetEnd o = i := by
          injection h
        exact hc
      · rw [if_neg hc] at h
        exact absurd h (by simp)
    · rintro ⟨hi, hs, he⟩
      have heq : bisectLeft lst.offsetEnd o = i := by
        by_cases hlt : i < bisectLeft lst.offsetEnd o
        · have := hb3
          have hbl : bisectLeft lst.offsetEnd o ≤ lst.offsetEnd.length := hb1
          -- i < r would give end_i < o, contradicting o ≤ end_i
          have := hb2 i hlt
          rw [hgetD i o hi] at this
          omega
        · by_cases hgt : bisectLeft lst.offsetEnd o < i
          · -- r < i: o ≤ end_r but end_r < start_i ≤ o
            have hrn : bisectLeft lst.offsetEnd o < lst.offsetEnd.length := by
              omega
            have h1 := hb3 hrn
            rw [hgetD _ o hrn] at h1
            have h2 := hdisj i hi (bisectLeft lst.offsetEnd o) hgt
            omega
          · omega
      simp only [getIdxAtOffset, heq]
      rw [if_pos ⟨by omega, hs, he⟩]
  refine ⟨key, ?_, ?_⟩
  · intro hnone i hi hcontains
    have := (key i).mpr ⟨hi, hcontains.1, hcontains.2⟩
    rw [hnone] at this
    exact absurd this (by simp)
  · intro hno
    cases h : getIdxAtOffset lst o with
    | none => rfl
    | some j =>
      obtain ⟨hj, hs, he⟩ := (key j).mp h
      exact absurd ⟨hs, he⟩ (hno j hj)

/-- C8 witness: the theorem applied to a concrete sorted index with
intervals 0–2 and 5–8, queried at offset 6 (contained, index 1) — the
containment direction of the equivalence produces `some 1`. -/
theorem c8_witness :
    getIdxAtOffset
      (addIntervalValues (addIntervalValues emptyIntervalList 0 2 0 0 0 2 [])
        5 8 0 5 0 8 []) 6 = some 1 :=
  ((c8_interval_at_offset
      (addIntervalValues (addIntervalValues emptyIntervalList 0 2 0 0 0 2 [])
        5 8 0 5 0 8 []) 6
      (by decide) (by decide)).1 1).mpr (by decide)

theorem sumRuns_append (a b : List (Int × Bool)) :
    sumRuns (a ++ b) = sumRuns a + sumRuns b := by
  simp [sumRuns]

theorem sumRuns_cons (it : Int × Bool) (rest : List (Int × Bool)) :
    sumRuns (it :: rest) = it.1 + sumRuns rest := by
  simp [sumRuns]

theorem sumRuns_nil : sumRuns [] = 0 := rfl

theorem sumRuns_take_succ (items : List (Int × Bool)) (j : Nat)
    (h : j < items.length) :
    sumRuns (items.take (j + 1)) =
      sumRuns (items.take j) + (items.get ⟨j, h⟩).1 := by
  rw [List.take_succ]
  have hj : items[j]? = some (items.get ⟨j, h⟩) := by
    rw [List.getElem?_eq_getElem h]
    rfl
  rw [hj, sumRuns_append]
  simp [sumRuns]

theorem sumRuns_take_mono (items : List (Int × Bool))
    (hnn : ∀ it ∈ items, 0 ≤ it.1) (i j : Nat) (hij : i ≤ j) :
    sumRuns (items.take i) ≤ sumRuns (items.take j) := by
  have h1 : items.take i = (items.take j).take i := by
    rw [List.take_take, Nat.min_eq_left hij]
  rw [h1]
  conv_rhs => rw [← List.take_append_drop i (items.take j)]
  rw [sumRuns_append]
  have h2 : 0 ≤ sumRuns ((items.take j).drop i) := by
    apply List.sum_nonneg
    intro x hx
    simp only [List.mem_map] at hx
    obtain ⟨it, hit, rfl⟩ := hx
    exact hnn it (List.mem_of_mem_take (List.mem_of_mem_drop hit))
  omega

theorem sumRuns_take_nonneg (items : List (Int × Bool))
    (hnn : ∀ it ∈ items, 0 ≤ it.1) (j : Nat) :
    0 ≤ sumRuns (items.take j) := by
  have := sumRuns_take_mono items hnn 0 j (Nat.zero_le j)
  simpa [sumRuns] using this

theorem sumRuns_replaceAt (items : List (Int × Bool)) (idx : Nat)
    (h : idx < items.length) (tuples : List (Int × Bool)) :
    sumRuns (replaceAt items idx tuples) =
      sumRuns items - (items.get ⟨idx, h⟩).1 + sumRuns tuples := by
  have hsplit : items =
      items.take idx ++ items.get ⟨idx, h⟩ :: items.drop (idx + 1) := by
    conv_lhs => rw [← List.take_append_drop idx items]
    congr 1
    rw [List.drop_eq_getElem_cons h]
    rfl
  have hsum2 : sumRuns items = sumRuns (items.take idx) +
      (items.get ⟨idx, h⟩).1 + sumRuns (items.drop (idx + 1)) := by
    conv_lhs => rw [hsplit]
    rw [sumRuns_append, sumRuns_cons]
    ring
  rw [replaceAt, sumRuns_append, sumRuns_append, hsum2]
  ring

theorem mem_replaceAt_nonneg (items : List (Int × Bool)) (idx : Nat)
    (tuples : List (Int × Bool)) (hnn : ∀ it ∈ items, 0 ≤ it.1)
    (hnt : ∀ it ∈ tuples, 0 ≤ it.1) :
    ∀ it ∈ replaceAt items idx tuples, 0 ≤ it.1 := by
  intro it hit
  simp only [replaceAt, List.mem_append] at hit
  rcases hit with (hit | hit) | hit
  · exact hnn it (List.mem_of_mem_take hit)
  · exact hnt it hit
  · exact hnn it (List.mem_of_mem_drop hit)

theorem sumAbsRuns_eq_sumRuns (items : List (Int × Bool))
    (h : ∀ it ∈ items, 0 ≤ it.1) : sumAbsRuns items = sumRuns items := by
  unfold sumAbsRuns sumRuns
  congr 1
  apply List.map_congr_left
  intro it hit
  exact abs_of_nonneg (h it hit)

theorem getOffsetIdxGo_spec (items : List (Int × Bool)) :
    ∀ (offset pos : Int) (idx : Nat),
    (∀ it ∈ items, 0 ≤ it.1) → pos ≤ offset →
    offset < pos + sumRuns items →
    ∃ j, getOffsetIdxGo items offset pos idx =
        some (idx + j, pos + sumRuns (items.take j)) ∧
      j < items.length ∧ pos + sumRuns (items.take j) ≤ offset ∧
      offset < pos + sumRuns (items.take (j + 1)) := by
  induction items with
  | nil =>
    intro offset pos idx _ hp ho
    simp [sumRuns] at ho
    omega
  | cons it rest ih =>
    intro offset pos idx h hp ho
    simp only [getOffsetIdxGo]
    rw [if_pos hp]
    by_cases hcase : pos + it.1 ≤ offset
    · rw [if_pos hcase]
      have ho' : offset < (pos + it.1) + sumRuns rest := by
        rw [sumRuns_cons] at ho
        omega
      obtain ⟨j, heq, hj, hle, hlt⟩ := ih offset (pos + it.1) (idx + 1)
        (fun x hx => h x (List.mem_cons_of_mem _ hx)) hcase ho'
      refine ⟨j + 1, ?_, by simpa using hj, ?_, ?_⟩
      · rw [heq]
        congr 2
        · omega
        · rw [List.take_succ_cons, sumRuns_cons]
          ring
      · rw [List.take_succ_cons, sumRuns_cons]
        omega
      · rw [List.take_succ_cons, sumRuns_cons]
        omega
    · rw [if_neg hcase]
      refine ⟨0, by simp [sumRuns], by simp, by simpa [sumRuns] using hp, ?_⟩
      rw [List.take_succ_cons, List.take_zero, sumRuns_cons]
      simp only [sumRuns, List.map_nil, List.sum_nil]
      omega

/-- C3 (amended): for a tracker whose ledger has non-negative runs summing
to the (pre-edit) target length, an incremental update that starts before
the target's end, stays within the single ledger run containing its start,
and inserts at least as much text as it replaces, succeeds and preserves
the conservation invariant: the ledger's runs stay non-negative and the
sum of their absolute lengths equals the length of the post-edit target
text.  (For shrinking or run-crossing edits the invariant fails; see the
counterexample.) -/
theorem c3_conservation (st : TrackerState) (target : PyStr)
    (range : PosRange) (text : PyStr)
    (hfull : st.fullDocumentChange = false)
    (hnn : ∀ it ∈ st.items, 0 ≤ it.1)
    (hsum : sumRuns st.items = (target.length : Int))
    (hs : offsetAtPosition target range.start < target.length)
    (hse : offsetAtPosition target range.start ≤
      offsetAtPosition target range.stop)
    (hgrow : offsetAtPosition target range.stop ≤
      offsetAtPosition target range.start + text.length)
    (hrun : (runEndAt st.items (offsetAtPosition target range.start)).all
      (fun r => decide ((offsetAtPosition target range.stop : Int) ≤ r)) =
      true) :
    ∃ st', updateDocument st target (.rangeChange range text) = some st' ∧
      st'.fullDocumentChange = false ∧
      (∀ it ∈ st'.items, 0 ≤ it.1) ∧
      sumAbsRuns st'.items =
        ((applyRangeChange target range text).length : Int) := by
  obtain ⟨j, heq, hj, hle, hlt⟩ :=
    getOffsetIdxGo_spec st.items
      ((offsetAtPosition target range.start : Nat) : Int) 0 0 hnn
      (by positivity) (by omega)
  simp only [Nat.zero_add, zero_add] at heq hle hlt
  have heqG : getOffsetIdx st.items
      ((offsetAtPosition target range.start : Nat) : Int) =
      some (j, sumRuns (st.items.take j)) := heq
  have hitem : st.items[j]? = some (st.items.get ⟨j, hj⟩) := by
    rw [List.getElem?_eq_getElem hj]
    rfl
  simp only [runEndAt, heqG, hitem, Option.all_some, decide_eq_true_eq]
    at hrun
  rw [sumRuns_take_succ st.items j hj] at hlt
  have hio0 : 0 ≤ sumRuns (st.items.take j) :=
    sumRuns_take_nonneg st.items hnn j
  have hitnn : 0 ≤ (st.items.get ⟨j, hj⟩).1 :=
    hnn _ (List.get_mem _ _ _)
  have hfit : sumRuns (st.items.take j) + (st.items.get ⟨j, hj⟩).1 ≤
      (target.length : Int) := by
    rw [← sumRuns_take_succ st.items j hj, ← hsum]
    calc sumRuns (st.items.take (j + 1)) ≤
        sumRuns (st.items.take st.items.length) :=
          sumRuns_take_mono st.items hnn (j + 1) st.items.length (by omega)
      _ = sumRuns st.items := by rw [List.take_length]
  have hmax : max (if (text.length : Int) ≥
      ((offsetAtPosition target range.stop : Nat) : Int) -
        ((offsetAtPosition target range.start : Nat) : Int) then
      (text.length : Int)
    else (text.length : Int) -
      (((offsetAtPosition target range.stop : Nat) : Int) -
        ((offsetAtPosition target range.start : Nat) : Int)))
      (-(sumRuns (st.items.take j))) = (text.length : Int) := by
    rw [if_pos (by omega)]
    omega
  have happlen : ((applyRangeChange target range text).length : Int) =
      ((offsetAtPosition target range.start : Nat) : Int) +
        (text.length : Int) +
        ((target.length - offsetAtPosition target range.stop : Nat) : Int) := by
    simp only [applyRangeChange, List.length_append, List.length_take,
      List.length_drop]
    rw [Nat.min_eq_left (by omega)]
    push_cast
    ring
  by_cases hend : (((offsetAtPosition target range.stop : Nat) : Int) <
      (target.length : Int))
  · -- the edit ends before the end of the document: a suffix run is kept
    by_cases hsrel : (((offsetAtPosition target range.start : Nat) : Int) -
        sumRuns (st.items.take j) > 0)
    · refine ⟨⟨replaceAt st.items j
        [(((offsetAtPosition target range.start : Nat) : Int) -
            sumRuns (st.items.take j), (st.items.get ⟨j, hj⟩).2),
          ((text.length : Int), true),
          ((st.items.get ⟨j, hj⟩).1 -
            (((offsetAtPosition target range.start : Nat) : Int) -
              sumRuns (st.items.take j)) -
            (((offsetAtPosition target range.stop : Nat) : Int) -
              ((offsetAtPosition target range.start : Nat) : Int)),
            (st.items.get ⟨j, hj⟩).2)],
        st.fullDocumentChange⟩, ?_, by simpa using hfull, ?_, ?_⟩
      · simp only [updateDocument, hfull, Bool.false_eq_true, if_false,
          heqG, hitem, hmax, if_pos hsrel, if_pos hend]
        rfl
      · apply mem_replaceAt_nonneg _ _ _ hnn
        intro it hit
        simp only [List.mem_cons, List.mem_singleton] at hit
        rcases hit with rfl | rfl | rfl | h
        · simp only
          omega
        · simp only
          positivity
        · simp only
          omega
        · simp at h
      · rw [sumAbsRuns_eq_sumRuns, sumRuns_replaceAt st.items j hj, happlen]
        · simp only [sumRuns_cons, sumRuns_nil]
          omega
        · apply mem_replaceAt_nonneg _ _ _ hnn
          intro it hit
          simp only [List.mem_cons, List.mem_singleton] at hit
          rcases hit with rfl | rfl | rfl | h
          · simp only
            omega
          · simp only
            positivity
          · simp only
            omega
          · simp at h
    · refine ⟨⟨replaceAt st.items j
        [((text.length : Int), true),
          ((st.items.get ⟨j, hj⟩).1 -
            (((offsetAtPosition target range.start : Nat) : Int) -
              sumRuns (st.items.take j)) -
            (((offsetAtPosition target range.stop : Nat) : Int) -
              ((offsetAtPosition target range.start : Nat) : Int)),
            (st.items.get ⟨j, hj⟩).2)],
        st.fullDocumentChange⟩, ?_, by simpa using hfull, ?_, ?_⟩
      · simp only [updateDocument, hfull, Bool.false_eq_true, if_false,
          heqG, hitem, hmax, if_neg hsrel, if_pos hend]
        rfl
      · apply mem_replaceAt_nonneg _ _ _ hnn
        intro it hit
        simp only [List.mem_cons, List.mem_singleton] at hit
        rcases hit with rfl | rfl | h
        · simp only
          positivity
        · simp only
          omega
        · simp at h
      · rw [sumAbsRuns_eq_sumRuns, sumRuns_replaceAt st.items j hj, happlen]
        · simp only [sumRuns_cons, sumRuns_nil]
          omega
        · apply mem_replaceAt_nonneg _ _ _ hnn
          intro it hit
          simp only [List.mem_cons, List.mem_singleton] at hit
          rcases hit with rfl | rfl | h
          · simp only
            positivity
          · simp only
            omega
          · simp at h
  · -- the edit runs to the end of the document: no suffix run
    have hendeq : ((offsetAtPosition target range.stop : Nat) : Int) =
        (target.length : Int) := by
      omega
    by_cases hsrel : (((offsetAtPosition target range.start : Nat) : Int) -
        sumRuns (st.items.take j) > 0)
    · refine ⟨⟨replaceAt st.items j
        [(((offsetAtPosition target range.start : Nat) : Int) -
            sumRuns (st.items.take j), (st.items.get ⟨j, hj⟩).2),
          ((text.length : Int), true)],
        st.fullDocumentChange⟩, ?_, by simpa using hfull, ?_, ?_⟩
      · simp only [updateDocument, hfull, Bool.false_eq_true, if_false,
          heqG, hitem, hmax, if_pos hsrel, if_neg hend]
        rfl
      · apply mem_replaceAt_nonneg _ _ _ hnn
        intro it hit
        simp only [List.mem_cons, List.mem_singleton] at hit
        rcases hit with rfl | rfl | h
        · simp only
          omega
        · simp only
          positivity
        · simp at h
      · rw [sumAbsRuns_eq_sumRuns, sumRuns_replaceAt st.items j hj, happlen]
        · simp only [sumRuns_cons, sumRuns_nil]
          omega
        · apply mem_replaceAt_nonneg _ _ _ hnn
          intro it hit
          simp only [List.mem_cons, List.mem_singleton] at hit
          rcases hit with rfl | rfl | h
          · simp only
            omega
          · simp only
            positivity
          · simp at h
    · refine ⟨⟨replaceAt st.items j [((text.length : Int), true)],
        st.fullDocumentChange⟩, ?_, by simpa using hfull, ?_, ?_⟩
      · simp only [updateDocument, hfull, Bool.false_eq_true, if_false,
          heqG, hitem, hmax, if_neg hsrel, if_neg hend]
        rfl
      · apply mem_replaceAt_nonneg _ _ _ hnn
        intro it hit
        simp only [List.mem_singleton] at hit
        subst hit
        simp only
        positivity
      · rw [sumAbsRuns_eq_sumRuns, sumRuns_replaceAt st.items j hj, happlen]
        · simp only [sumRuns_cons, sumRuns_nil]
          omega
        · apply mem_replaceAt_nonneg _ _ _ hnn
          intro it hit
          simp only [List.mem_singleton] at hit
          subst hit
          simp only
          positivity

/-- C3 counterexample: on a fresh tracker over `"abcdef"` a single
shrinking update (replace the two characters at offsets 2–3 with `"x"`)
produces the ledger `[(2,F),(0,T),(2,F)]`, whose absolute run lengths sum
to 4; but the post-edit target `"abxef"` has length 5 (and the pre-edit
target length 6), so the claimed conservation fails. -/
theorem c3_counterexample :
    updateDocument (newTracker ['a', 'b', 'c', 'd', 'e', 'f'])
        ['a', 'b', 'c', 'd', 'e', 'f']
        (.rangeChange ⟨⟨0, 2⟩, ⟨0, 4⟩⟩ ['x']) =
      some ⟨[(2, false), (0, true), (2, false)], false⟩ ∧
    sumAbsRuns [(2, false), (0, true), (2, false)] = 4 ∧
    applyRangeChange ['a', 'b', 'c', 'd', 'e', 'f'] ⟨⟨0, 2⟩, ⟨0, 4⟩⟩ ['x'] =
      ['a', 'b', 'x', 'e', 'f'] := by
  refine ⟨by decide, by decide, by decide⟩

/-- C3 witness: the amended conservation theorem applied to a growing
edit — on the same fresh tracker over `"abcdef"`, replacing the two
characters at offsets 2–3 with `"xyz"`. -/
theorem c3_witness :
    ∃ st', updateDocument (newTracker ['a', 'b', 'c', 'd', 'e', 'f'])
        ['a', 'b', 'c', 'd', 'e', 'f']
        (.rangeChange ⟨⟨0, 2⟩, ⟨0, 4⟩⟩ ['x', 'y', 'z']) = some st' ∧
      st'.fullDocumentChange = false ∧
      (∀ it ∈ st'.items, 0 ≤ it.1) ∧
      sumAbsRuns st'.items =
        ((applyRangeChange ['a', 'b', 'c', 'd', 'e', 'f'] ⟨⟨0, 2⟩, ⟨0, 4⟩⟩
          ['x', 'y', 'z']).length : Int) :=
  c3_conservation (newTracker ['a', 'b', 'c', 'd', 'e', 'f'])
    ['a', 'b', 'c', 'd', 'e', 'f'] ⟨⟨0, 2⟩, ⟨0, 4⟩⟩ ['x', 'y', 'z']
    (by decide) (by decide) (by decide) (by decide) (by decide) (by decide)
    (by decide)

end TextLSP
